import Mathlib

/-! Verification of the `noir_pairing` oracle server.

The repository implements an oracle that, given `f` in the BN254 tower field
`F_{p^12}`, produces pairing-verification witnesses `(c, u)` (file
`src/oracle/src/ops.rs`), plus a JSON dispatch layer that decodes field elements
from 120-bit hex limbs and re-encodes results (`src/oracle/src/main.rs`,
`src/oracle/src/handlers.rs`, `src/oracle/src/foreign_call.rs`).

The tower-field arithmetic itself comes from the external `arkworks` crates
(`ark_bn254::Fq12`); the spec lists `BigField` as an assumed external library.
Modelled from the spec: every operation of `ops.rs` uses only the multiplicative
structure of `F_{p^12}` (multiplication, inversion, powers, equality with one),
so the unit group `F_{p^12}^×` is modelled as the cyclic group of order
`NN = p^12 - 1`, written multiplicatively as `Multiplicative (ZMod NN)`
(discrete-log representation with respect to a fixed generator).  The field
zero, which no claim's algorithm can meaningfully process (`a.inverse().unwrap()`
panics on it), is outside this model.  Exponentiation `Fq12::pow` is `fqpow`.

The limb codec and dispatcher (`handlers.rs`, `main.rs`) are embedded
separately over the coordinate representation (twelve `ZMod p` coordinates,
mirroring `ark_bn254`'s `2-3-2` tower layout) together with a small JSON value
type; Rust panics (`unwrap`, out-of-bounds indexing) are modelled as `none`.
-/

namespace NoirPairing

/-- BN254 base-field prime modulus. Source: `Fq::MODULUS` in `ops.rs` (arkworks
constant; the value is the standard BN254 modulus named by the spec, section 3). -/
def p : ℕ := 21888242871839275222246405745257275088696311157297823662689037894645226208583

/-- BN254 scalar-field modulus. Source: `Fr::MODULUS` in `ops.rs`; its decimal
value is quoted verbatim in the comment of `r_th_root_of_f` (`ops.rs` line 88). -/
def r : ℕ := 21888242871839275222246405745257275088548364400416034343698204186575808495617

/-- The BN254 parameter `x`, computed as in `mp_th_root_of_c`:
`x = (x-1)/2 * 2 + 1` with `(x-1)/2 = 2482830683596424440` (`ops.rs` lines 66-67). -/
def xBN : ℕ := 2482830683596424440 * 2 + 1

/-- Order of the multiplicative group of `F_{p^12}`: `p^12 - 1`. -/
def NN : ℕ := p ^ 12 - 1

/-- `h = (p^12 - 1) / r`, as computed in `r_th_root_of_f` and `mp_th_root_of_c`. -/
def hBN : ℕ := (p ^ 12 - 1) / r

/-- `lambda = 6x + 2 + q + q^3 - q^2`, in the exact order of operations of
`mp_th_root_of_c` (`ops.rs` lines 68-71). -/
def lambdaBN : ℕ := 6 * xBN + 2 + p + p ^ 3 - p ^ 2

/-- `m = lambda / r` (`ops.rs` line 74). -/
def mBN : ℕ := lambdaBN / r

/-- `mp = m / 3` (`ops.rs` line 76). -/
def mpBN : ℕ := mBN / 3

/-- `s = (p^12 - 1) / 27`, the odd part used by `tonelli_shanks_third_root`
(`ops.rs` line 144). -/
def sTS : ℕ := (p ^ 12 - 1) / 27

/-- `exp = (s + 1) / 3`, the starting exponent of `tonelli_shanks_third_root`
(`ops.rs` line 145). -/
def eTS : ℕ := (sTS + 1) / 3

instance : NeZero NN := ⟨by decide⟩

/-- Modelled from the spec: the unit group `F_{p^12}^×` of the external
`arkworks` tower field is cyclic of order `p^12 - 1`; we represent it in
discrete-log form.  Multiplication, inversion and `1` are the group operations
of `Multiplicative (ZMod NN)`. -/
abbrev Fq12 : Type := Multiplicative (ZMod NN)

/-- Modelled from the spec: `Fq12::pow` by an arbitrary-precision nonnegative
exponent.  In discrete-log representation raising to the `k`-th power is
multiplication of the logarithm by `k`. -/
def fqpow (a : Fq12) (k : ℕ) : Fq12 :=
  Multiplicative.ofAdd ((k : ZMod NN) * Multiplicative.toAdd a)

section OpsDefs

/-- `extended_gcd`'s while loop (`ops.rs` lines 112-123), with an explicit fuel
argument bounding the number of iterations (the Rust loop runs until `a = 0`;
`|a|` strictly decreases, so `|a| + 1` iterations always suffice).  State is
`(a, b, x, y, u, v)` exactly as in the source; Rust `BigInt` division and
remainder truncate toward zero, i.e. `Int.tdiv` / `Int.tmod`. -/
def extended_gcd_loop : ℕ → ℤ → ℤ → ℤ → ℤ → ℤ → ℤ → ℤ × ℤ × ℤ
  | 0, _, b, xx, yy, _, _ => (b, xx, yy)
  | fuel + 1, a, b, xx, yy, u, v =>
    if a = 0 then (b, xx, yy)
    else
      extended_gcd_loop fuel (b.tmod a) a u v (xx - u * (b.tdiv a)) (yy - v * (b.tdiv a))

/-- `extended_gcd(a, b)` returns `(gcd, x, y)` with Bezout coefficients,
translated from `ops.rs` lines 107-125. -/
def extended_gcd (a b : ℤ) : ℤ × ℤ × ℤ :=
  extended_gcd_loop (a.natAbs + 1) a b 0 1 1 0

/-- The `while res < 0 { res = res + modulus }` normalization loop of `invert`
(`ops.rs` lines 134-136), with fuel (`|res| + 1` additions of a positive
modulus always suffice). -/
def normalize_loop : ℕ → ℤ → ℤ → ℤ
  | 0, res, _ => res
  | fuel + 1, res, modulus =>
    if res < 0 then normalize_loop fuel (res + modulus) modulus else res

/-- `invert(a, modulus)` from `ops.rs` lines 127-138.  The source `assert`s
that the inputs are coprime, aborting otherwise; the abort is modelled as
`none`. -/
def invert (a modulus : ℕ) : Option ℤ :=
  match extended_gcd (a : ℤ) (modulus : ℤ) with
  | (g, bez, _) =>
    if g = 1 then some (normalize_loop (bez.natAbs + 1) bez (modulus : ℤ)) else none

/-- `pow_p12_minus_one_div_3` from `ops.rs` lines 199-208. -/
def pow_p12_minus_one_div_3 (a : Fq12) : Fq12 :=
  fqpow a ((p ^ 12 - 1) / 3)

/-- `pow_p12_minus_one_div_27` from `ops.rs` lines 188-197. -/
def pow_p12_minus_one_div_27 (a : Fq12) : Fq12 :=
  fqpow a ((p ^ 12 - 1) / 27)

/-- `is_third_root` from `ops.rs` lines 210-213: the cubic-residue test. -/
def is_third_root (a : Fq12) : Bool :=
  decide (pow_p12_minus_one_div_3 a = 1)

/-- `r_th_root_of_f` from `ops.rs` lines 86-103: return `f^(r⁻¹ mod h)`.
The source unwraps the (always coprime) inversion; the never-taken abort
branch is modelled by `1`. -/
def r_th_root_of_f (f : Fq12) : Fq12 :=
  match invert r hBN with
  | some k => fqpow f k.toNat
  | none => 1

/-- `mp_th_root_of_c` from `ops.rs` lines 60-84: return `c^(mp⁻¹ mod h)`. -/
def mp_th_root_of_c (c : Fq12) : Fq12 :=
  match invert mpBN hBN with
  | some k => fqpow c k.toNat
  | none => 1

/-- The correction loop of `tonelli_shanks_third_root` (`ops.rs` lines
148-150): while `x^3 * a⁻¹ ≠ 1`, multiply `x` by `w`.  Fuel 27 covers every
terminating run (at most 26 corrections are ever needed, see the claims); on a
non-residue input the Rust loop never exits. -/
def tonelli_loop (w a : Fq12) : ℕ → Fq12 → Fq12
  | 0, x => x
  | fuel + 1, x => if fqpow x 3 * a⁻¹ = 1 then x else tonelli_loop w a fuel (x * w)

/-- `tonelli_shanks_third_root` from `ops.rs` lines 140-152, parameterized by
the 27th root of unity `w` that the source obtains from `find_27th_root()`
(the deterministic `test_rng` makes every internal call return the same `w`). -/
def tonelli_shanks_third_root (w a : Fq12) : Fq12 :=
  tonelli_loop w a 27 (fqpow a eTS)

/-- The candidate tried by one iteration of `find_27th_root` (`ops.rs` lines
165-175) on the random sample `x`: `w = x^((p^12-1)/27)`. -/
def find_27th_root_candidate (x : Fq12) : Fq12 :=
  pow_p12_minus_one_div_27 x

/-- The acceptance test of `find_27th_root`: the candidate is returned iff
`w ≠ 1 && w^9 ≠ 1`. -/
def find_27th_root_accepts (x : Fq12) : Bool :=
  decide (find_27th_root_candidate x ≠ 1) && decide (fqpow (find_27th_root_candidate x) 9 ≠ 1)

/-- The acceptance test of `find_third_non_residue` (`ops.rs` lines 177-186)
on the random sample `a`: the pair is returned iff `b^3 ≠ 1` where
`b = a^((p^12-1)/27)`. -/
def find_third_non_residue_accepts (a : Fq12) : Bool :=
  decide (fqpow (pow_p12_minus_one_div_27 a) 3 ≠ 1)

/-- The pair `(a, b)` returned by `find_third_non_residue` on an accepted
sample `a`. -/
def find_third_non_residue_result (a : Fq12) : Fq12 × Fq12 :=
  (a, pow_p12_minus_one_div_27 a)

/-- The acceptance test of `rand_third_root` (`ops.rs` lines 215-222): a
sample is returned iff it passes `is_third_root`. -/
def rand_third_root_accepts (a : Fq12) : Bool :=
  is_third_root a

/-- `witness_generator` from `ops.rs` lines 39-58, parameterized by the root
`w` found by `find_27th_root()`.  The three-way branch selects
`s ∈ {0, 1, 2}` with `(f * w^s)` a cubic residue, then takes the `r`-th,
`m'`-th and third roots, and returns `(c, w.pow([3 ^ s]))` where `^` is
Rust's bitwise XOR. -/
def witness_generator (w input : Fq12) : Fq12 × Fq12 :=
  let fs : Fq12 × ℕ :=
    if pow_p12_minus_one_div_3 input = 1 then (input, 0)
    else if pow_p12_minus_one_div_3 (input * w) = 1 then (input * w, 1)
    else (input * fqpow w 2, 2)
  let c1 := r_th_root_of_f fs.1
  let c2 := mp_th_root_of_c c1
  let c3 := tonelli_shanks_third_root w c2
  (c3, fqpow w (3 ^^^ fs.2))

/-- The step-2 adjusted Miller value `f * w^s`: the value whose roots
`witness_generator` extracts (the first component of its internal state
after the three-way branch). -/
def residue_adjust (w input : Fq12) : Fq12 :=
  if pow_p12_minus_one_div_3 input = 1 then input
  else if pow_p12_minus_one_div_3 (input * w) = 1 then input * w
  else input * fqpow w 2

end OpsDefs

section CodecDefs

/-- `ForeignCallParam` from `src/oracle/src/foreign_call.rs`: either a single
scalar limb or an array of limbs, generic in the limb type. -/
inductive ForeignCallParam (F : Type) : Type
  | Single : F → ForeignCallParam F
  | Array : List F → ForeignCallParam F
deriving DecidableEq

/-- `RequestData` from `src/oracle/src/main.rs` lines 37-44. -/
structure RequestData where
  session_id : ℕ
  function : String
  inputs : List (ForeignCallParam String)
  root_path : String
  package_name : String

/-- Minimal JSON value type covering every shape the handlers build with
`serde_json`: strings, arrays and objects. -/
inductive Json : Type
  | str : String → Json
  | arr : List Json → Json
  | obj : List (String × Json) → Json

/-- Coordinate representation of an `ark_bn254::Fq2` element: two `F_p`
coordinates (`Fq::from` reduces an arbitrary big integer mod `p`, hence
`ZMod p`). -/
structure Fq2R where
  c0 : ZMod p
  c1 : ZMod p
deriving DecidableEq

/-- Coordinate representation of an `ark_bn254::Fq6` element. -/
structure Fq6R where
  c0 : Fq2R
  c1 : Fq2R
  c2 : Fq2R
deriving DecidableEq

/-- Coordinate representation of an `ark_bn254::Fq12` element, as built by
`get_fq12_from_callparam` (`handlers.rs` lines 82-111). -/
structure Fq12R where
  c0 : Fq6R
  c1 : Fq6R
deriving DecidableEq

/-- `trim_start_matches('0')` as used by `callparam_to_string`
(`handlers.rs` lines 184-192). -/
def trim_zeros (s : String) : String :=
  ⟨s.data.dropWhile (fun c => c = '0')⟩

/-- `callparam_to_string` from `handlers.rs` lines 184-192: a `Single` becomes
a one-element list, an `Array` keeps its elements, all with leading zeros
stripped. -/
def callparam_to_string : ForeignCallParam String → List String
  | ForeignCallParam.Single v => [trim_zeros v]
  | ForeignCallParam.Array vs => vs.map trim_zeros

/-- One hexadecimal digit as accepted by `BigUint::from_str_radix(_, 16)`. -/
def hex_digit (c : Char) : Option ℕ :=
  if '0' ≤ c ∧ c ≤ '9' then some (c.toNat - '0'.toNat)
  else if 'a' ≤ c ∧ c ≤ 'f' then some (c.toNat - 'a'.toNat + 10)
  else if 'A' ≤ c ∧ c ≤ 'F' then some (c.toNat - 'A'.toNat + 10)
  else none

/-- `BigUint::from_str_radix(s, 16)`: at least one digit is required and every
character must be a hex digit; `none` models `Err`. -/
def from_str_radix_16 (s : String) : Option ℕ :=
  if s.data = [] then none
  else s.data.foldlM (fun acc c => (hex_digit c).map (fun d => acc * 16 + d)) 0

/-- The `for` loops of the decoders push one converted value per element and
`unwrap` panics abort the whole handler: modelled as an all-or-nothing
traversal over `Option`. -/
def option_map_list {α β : Type} (f : α → Option β) : List α → Option (List β)
  | [] => some []
  | x :: xs => (f x).bind (fun b => (option_map_list f xs).map (fun bs => b :: bs))

/-- `cast_to_biguint` from `handlers.rs` lines 142-164: parse each limb (an
empty string is zero), then recompose in base `2^120` little-endian.  The
source `unwrap`s the parse result, panicking on malformed hex; the panic is
modelled as `none`.  No bound on limb values is checked. -/
def cast_to_biguint (input_strings : List String) : Option ℕ :=
  (option_map_list (fun s => if s = "" then some 0 else from_str_radix_16 s) input_strings).map
    (fun limbs =>
      let shift := (2 : ℕ) ^ 120
      limbs.enum.foldl (fun res il => res + il.2 * shift ^ il.1) 0)

/-- `get_fq12_from_callparam` from `handlers.rs` lines 75-113: decode each
input into an `F_p` coordinate (`Fq::from` reduces mod `p`), then assemble the
twelve coordinates in tower order.  Indexing `biguints[0]` through
`biguints[11]` panics when fewer than twelve coordinates decoded (`none`);
extra coordinates are silently ignored. -/
def get_fq12_from_callparam (inputs : List (ForeignCallParam String)) : Option Fq12R :=
  (option_map_list (fun inp => (cast_to_biguint (callparam_to_string inp)).map
      (fun n => (n : ZMod p))) inputs).bind
    (fun biguints =>
      if 12 ≤ biguints.length then
        some
          { c0 := { c0 := { c0 := biguints.getD 0 0, c1 := biguints.getD 1 0 }
                    c1 := { c0 := biguints.getD 2 0, c1 := biguints.getD 3 0 }
                    c2 := { c0 := biguints.getD 4 0, c1 := biguints.getD 5 0 } }
            c1 := { c0 := { c0 := biguints.getD 6 0, c1 := biguints.getD 7 0 }
                    c1 := { c0 := biguints.getD 8 0, c1 := biguints.getD 9 0 }
                    c2 := { c0 := biguints.getD 10 0, c1 := biguints.getD 11 0 } } }
      else none)

/-- Lowercase hex encoding, `BigUint::to_str_radix(16)`. -/
def to_str_radix_16 (n : ℕ) : String :=
  ⟨Nat.toDigits 16 n⟩

/-- `cast_bigint_to_bignum_limbs` from `handlers.rs` lines 225-240: repeatedly
take the remainder and quotient by `2^120`, hex-encoding each limb
(little-endian).  All values encoded by the handlers are nonnegative, so the
`BigInt` is modelled by `ℕ`. -/
def cast_bigint_to_bignum_limbs (input : ℕ) : ℕ → List String
  | 0 => []
  | k + 1 =>
    to_str_radix_16 (input % 2 ^ 120) :: cast_bigint_to_bignum_limbs (input / 2 ^ 120) k

/-- The twelve `F_p` coordinates of an `Fq12` element in the canonical order
used by `cast_fp12_to_noir_fp12` (`handlers.rs` lines 117-130). -/
def fq12R_coords (input : Fq12R) : List (ZMod p) :=
  [input.c0.c0.c0, input.c0.c0.c1, input.c0.c1.c0, input.c0.c1.c1,
   input.c0.c2.c0, input.c0.c2.c1, input.c1.c0.c0, input.c1.c0.c1,
   input.c1.c1.c0, input.c1.c1.c1, input.c1.c2.c0, input.c1.c2.c1]

/-- `cast_fp12_to_noir_fp12` from `handlers.rs` lines 115-140: three limbs per
coordinate, 36 hex strings in total. -/
def cast_fp12_to_noir_fp12 (input : Fq12R) : List String :=
  ((fq12R_coords input).map (fun c => cast_bigint_to_bignum_limbs c.val 3)).flatten

/-- The operations of the `WitnessGenerator` trait as used by the handlers,
abstracted over the coordinate representation: the handlers' response shapes
do not depend on them (the kernel itself is verified in the multiplicative
model above). -/
structure CoreOps where
  tonelli_third_root : Fq12R → Fq12R
  is_third_root_op : Fq12R → Bool
  rand_third_root_op : Fq12R
  witness_generator_op : Fq12R → Fq12R × Fq12R

/-- `handle_witness_gen` from `handlers.rs` lines 25-27: a fixed string. -/
def handle_witness_gen (_inputs : List (ForeignCallParam String)) : Json :=
  Json.str "Hello, world!"

/-- `handle_third_root` from `handlers.rs` lines 29-38. -/
def handle_third_root (ops : CoreOps) (inputs : List (ForeignCallParam String)) : Option Json :=
  (get_fq12_from_callparam inputs).map
    (fun fp12 =>
      Json.obj [("values", Json.arr
        [Json.arr ((cast_fp12_to_noir_fp12 (ops.tonelli_third_root fp12)).map Json.str)])])

/-- `handle_is_third_root` from `handlers.rs` lines 40-55: the boolean result
is hex-encoded as a single string. -/
def handle_is_third_root (ops : CoreOps) (inputs : List (ForeignCallParam String)) :
    Option Json :=
  (get_fq12_from_callparam inputs).map
    (fun fp12 =>
      Json.obj [("values", Json.arr
        [Json.str (to_str_radix_16 (if ops.is_third_root_op fp12 then 1 else 0))])])

/-- `handle_random_third_root` from `handlers.rs` lines 57-63: the inputs are
ignored, so this handler never panics. -/
def handle_random_third_root (ops : CoreOps) (_inputs : List (ForeignCallParam String)) : Json :=
  Json.obj [("values", Json.arr
    [Json.arr ((cast_fp12_to_noir_fp12 ops.rand_third_root_op).map Json.str)])]

/-- `handle_get_pairing_witnesses` from `handlers.rs` lines 65-73. -/
def handle_get_pairing_witnesses (ops : CoreOps) (inputs : List (ForeignCallParam String)) :
    Option Json :=
  (get_fq12_from_callparam inputs).map
    (fun fp12 =>
      Json.obj [("values", Json.arr
        [Json.arr ((cast_fp12_to_noir_fp12 (ops.witness_generator_op fp12).1).map Json.str),
         Json.arr ((cast_fp12_to_noir_fp12 (ops.witness_generator_op fp12).2).map Json.str)])])

/-- `handle_unknown_function` from `main.rs` lines 49-52: `json!(vec!["oops"])`
is the bare JSON array `["oops"]`. -/
def handle_unknown_function (_input : RequestData) : Json :=
  Json.arr [Json.str "oops"]

/-- The dispatch `match` of `resolve_foreign_call` (`main.rs` lines 76-83). -/
def dispatch (ops : CoreOps) (request : RequestData) : Option Json :=
  match request.function with
  | "witness_gen" => some (handle_witness_gen request.inputs)
  | "third_root" => handle_third_root ops request.inputs
  | "is_third_root" => handle_is_third_root ops request.inputs
  | "random_third_root" => some (handle_random_third_root ops request.inputs)
  | "get_pairing_witnesses" => handle_get_pairing_witnesses ops request.inputs
  | _ => some (handle_unknown_function request)

/-- Whether a JSON value has the documented response shape
`{ "values": [ ... ] }`. -/
def is_values_shape : Json → Bool
  | Json.obj [("values", Json.arr _)] => true
  | _ => false

/-- Whether a (flat) response mentions the literal `"oops"`. -/
def contains_oops : Json → Bool
  | Json.str s => s = "oops"
  | Json.arr l => l.any (fun j => match j with | Json.str s => s = "oops" | _ => false)
  | Json.obj _ => false

end CodecDefs

section NumericFacts

/-- The group order factors through the scalar field: `p^12 - 1 = r * h`. -/
lemma NN_eq_r_mul_h : NN = r * hBN := by decide

/-- The group order factors through the 3-Sylow: `p^12 - 1 = 27 * s`. -/
lemma NN_eq_27_mul_s : NN = 27 * sTS := by decide

/-- `3` does not divide `s = (p^12-1)/27`: the 3-adic valuation of the group
order is exactly 3 (`81` does not divide `p^12 - 1`). -/
lemma not_three_dvd_sTS : ¬ 3 ∣ sTS := by decide

/-- The Tonelli-Shanks starting exponent is exact: `3 * e = s + 1`. -/
lemma three_mul_eTS : 3 * eTS = sTS + 1 := by decide

/-- `lambda = 3 * m' * r` exactly (BN254 guarantees `r ∣ lambda` and `3 ∣ m`). -/
lemma lambdaBN_factored : lambdaBN = 3 * (mpBN * r) := by decide

/-- `27` divides `h` (the 3-Sylow of the unit group sits inside the index-`r`
subgroup, since `3` does not divide `r`). -/
lemma divides_27_hBN : hBN = 27 * (hBN / 27) := by decide

/-- The cubic-residue exponent in terms of `s`: `(p^12-1)/3 = 9 * s`. -/
lemma div3_eq_nine_s : (p ^ 12 - 1) / 3 = 9 * sTS := by decide

/-- The cubic-residue exponent factors through `h`:
`(p^12-1)/3 = (h/3) * r`. -/
lemma div3_eq_hdiv3_mul_r : (p ^ 12 - 1) / 3 = hBN / 3 * r := by decide

/-- `gcd(h, (p^12-1)/3) = h/3`: used to bound the order of an element
annihilated by both exponents. -/
lemma gcd_h_div3 : Nat.gcd hBN ((p ^ 12 - 1) / 3) = hBN / 3 := by decide

/-- `9` divides the group order. -/
lemma NN_eq_9_mul : NN = 9 * (3 * sTS) := by decide

/-- The inverse of `r` modulo `h`, as computed by `invert(r, h)`
(value checked below against the executable `extended_gcd`). -/
def KrBN : ℤ := 495819184011867778744231927046742333492451180917315223017345540833046880485481720031136878341141903241966521818658471092566752321606779256340158678675679238405722886654128392203338228575623261160538734808887996935946888297414610216445334190959815200956855428635568184508263913274453942864817234480763055154719338281461936129150171789463489422401982681230261920147923652438266934726901346095892093443898852488218812468761027620988447655860644584419583586883569984588067403598284748297179498734419889699245081714359110559679136004228878808158639412436468707589339209058958785568729925402190575720856279605832146553573981587948304340677613460685405477047119496887534881410757668344088436651291444274840864486870663164657544390995506448087189408281061890434467956047582679858345583941396130713046072603335601764495918026585155498301896749919393

/-- The inverse of `m'` modulo `h`, as computed by `invert(mp, h)`. -/
def KmpBN : ℤ := 17840267520054779749190587238017784600702972825655245554504342129614427201836516118803396948809179149954197175783449826546445899524065131269177708416982407215963288737761615699967145070776364294542559324079147363363059480104341231360692143673915822421222230661528586799190306058519400019024762424366780736540525310403098758015600523609594113357130678138304964034267260758692953579514899054295817541844330584721967571697039986079722203518034173581264955381924826388858518077894154909963532054519350571947910625755075099598588672669612434444513251495355121627496067454526862754597351094345783576387352673894873931328099247263766690688395096280633426669535619271711975898132416216382905928886703963310231865346128293216316379527200971959980873989485521004596686352787540034457467115536116148612884807380187255514888720048664139404687086409399

set_option maxRecDepth 8000 in
/-- The executable `invert` computes exactly `KrBN` on `(r, h)`. -/
lemma invert_r_hBN : invert r hBN = some KrBN := by decide

set_option maxRecDepth 8000 in
/-- The executable `invert` computes exactly `KmpBN` on `(mp, h)`. -/
lemma invert_mp_hBN : invert mpBN hBN = some KmpBN := by decide

/-- `KrBN` is indeed the inverse of `r` mod `h`. -/
lemma KrBN_mul_r : KrBN.toNat * r % hBN = 1 := by decide

/-- `KmpBN` is indeed the inverse of `m'` mod `h`. -/
lemma KmpBN_mul_mp : KmpBN.toNat * mpBN % hBN = 1 := by decide

end NumericFacts

section GroupLemmas

/-- Discrete log of a power. -/
lemma toAdd_fqpow (a : Fq12) (k : ℕ) :
    (fqpow a k).toAdd = (k : ZMod NN) * a.toAdd := rfl

/-- Equality with the identity, additively. -/
lemma eq_one_iff_toAdd (a : Fq12) : a = 1 ↔ a.toAdd = 0 := by
  constructor
  · intro h; rw [h]; exact toAdd_one
  · intro h
    have h2 := congrArg Multiplicative.ofAdd h
    simpa using h2

/-- The model power agrees with the monoid power of the multiplicative group. -/
lemma fqpow_eq_pow (a : Fq12) (k : ℕ) : fqpow a k = a ^ k := by
  apply Multiplicative.toAdd.injective
  rw [toAdd_fqpow, toAdd_pow, nsmul_eq_mul]

/-- Iterated powers multiply exponents. -/
lemma fqpow_fqpow (a : Fq12) (j k : ℕ) : fqpow (fqpow a j) k = fqpow a (j * k) := by
  apply Multiplicative.toAdd.injective
  rw [toAdd_fqpow, toAdd_fqpow, toAdd_fqpow]
  push_cast
  ring

/-- Powers distribute over products. -/
lemma fqpow_mul_base (a b : Fq12) (k : ℕ) : fqpow (a * b) k = fqpow a k * fqpow b k := by
  apply Multiplicative.toAdd.injective
  rw [toAdd_mul, toAdd_fqpow, toAdd_fqpow, toAdd_fqpow, toAdd_mul]
  ring

/-- The identity to any power is the identity. -/
lemma fqpow_one_base (k : ℕ) : fqpow 1 k = 1 := by
  apply Multiplicative.toAdd.injective
  rw [toAdd_fqpow, toAdd_one]
  ring

/-- First power. -/
lemma fqpow_one_exp (a : Fq12) : fqpow a 1 = a := by
  apply Multiplicative.toAdd.injective
  rw [toAdd_fqpow]
  push_cast
  ring

/-- Exponent addition. -/
lemma fqpow_add_exp (a : Fq12) (j k : ℕ) : fqpow a (j + k) = fqpow a j * fqpow a k := by
  apply Multiplicative.toAdd.injective
  rw [toAdd_mul, toAdd_fqpow, toAdd_fqpow, toAdd_fqpow]
  push_cast
  ring

/-- Successor exponent. -/
lemma fqpow_succ_exp (a : Fq12) (k : ℕ) : fqpow a (k + 1) = fqpow a k * a := by
  rw [fqpow_add_exp, fqpow_one_exp]

/-- If `a^d = 1` then `a^(d*q) = 1`. -/
lemma fqpow_mul_of_eq_one (a : Fq12) (d q : ℕ) (ha : fqpow a d = 1) :
    fqpow a (d * q) = 1 := by
  rw [← fqpow_fqpow, ha, fqpow_one_base]

/-- Every element is annihilated by the group order. -/
lemma fqpow_NN (a : Fq12) : fqpow a NN = 1 := by
  rw [eq_one_iff_toAdd, toAdd_fqpow]
  have h0 : ((NN : ℕ) : ZMod NN) = 0 := ZMod.natCast_self NN
  rw [h0, zero_mul]

/-- If `E ≡ 1 (mod h)` and `f^h = 1` then `f^E = f`: the inverse-exponent
trick behind both high-root extractions. -/
lemma fqpow_reduce_mod_h (f : Fq12) (E : ℕ) (hE : E % hBN = 1) (hf : fqpow f hBN = 1) :
    fqpow f E = f := by
  have hsplit : E = hBN * (E / hBN) + 1 := by
    conv_lhs => rw [← Nat.div_add_mod E hBN]
    rw [hE]
  rw [hsplit, fqpow_add_exp, fqpow_mul_of_eq_one f hBN (E / hBN) hf, one_mul, fqpow_one_exp]

/-- Structure of the `d`-torsion of the cyclic group of order `NN`: an element
killed by `d ∣ NN` is a power of the canonical element of order `d`. -/
lemma natmul_eq_zero_iff (d : ℕ) (hd : d ∣ NN) (hdpos : 0 < d) (z : ZMod NN) :
    (d : ZMod NN) * z = 0 ↔ ∃ k, k < d ∧ z = ((k * (NN / d) : ℕ) : ZMod NN) := by
  have hNN : d * (NN / d) = NN := Nat.mul_div_cancel' hd
  have hzval : ((z.val : ℕ) : ZMod NN) = z := ZMod.natCast_rightInverse z
  constructor
  · intro h
    have hcast : ((d * z.val : ℕ) : ZMod NN) = 0 := by push_cast; rw [hzval]; exact h
    rw [ZMod.natCast_zmod_eq_zero_iff_dvd] at hcast
    have h2 : d * (NN / d) ∣ d * z.val := by rw [hNN]; exact hcast
    have hdvd : (NN / d) ∣ z.val := (Nat.mul_dvd_mul_iff_left hdpos).mp h2
    obtain ⟨k, hk⟩ := hdvd
    refine ⟨k, ?_, ?_⟩
    · by_contra hge
      push_neg at hge
      have hle : NN ≤ z.val := by
        calc NN = d * (NN / d) := hNN.symm
        _ ≤ k * (NN / d) := Nat.mul_le_mul_right _ hge
        _ = z.val := by rw [hk, Nat.mul_comm]
      have hlt : z.val < NN := ZMod.val_lt z
      omega
    · rw [← hzval, hk, Nat.mul_comm]
  · rintro ⟨k, _, rfl⟩
    have hc : ((d : ZMod NN) * ((k * (NN / d) : ℕ) : ZMod NN))
        = ((d * (k * (NN / d)) : ℕ) : ZMod NN) := by push_cast; ring
    rw [hc, ZMod.natCast_zmod_eq_zero_iff_dvd]
    refine ⟨k, ?_⟩
    calc d * (k * (NN / d)) = k * (d * (NN / d)) := by ring
    _ = k * NN := by rw [hNN]
    _ = NN * k := by ring

/-- If `d` kills `z`, any multiple of `d` kills `z`. -/
lemma natmul_mul_eq_zero (d k : ℕ) (z : ZMod NN) (hz : (d : ZMod NN) * z = 0) :
    ((d * k : ℕ) : ZMod NN) * z = 0 := by
  push_cast
  calc ((d : ZMod NN) * k) * z = k * ((d : ZMod NN) * z) := by ring
  _ = 0 := by rw [hz, mul_zero]

/-- Bezout in the cyclic group: if both `a` and `b` kill `z`, so does
`gcd a b`. -/
lemma gcd_annihilates (a b : ℕ) (z : ZMod NN) (ha : (a : ZMod NN) * z = 0)
    (hb : (b : ZMod NN) * z = 0) : ((Nat.gcd a b : ℕ) : ZMod NN) * z = 0 := by
  have hbez := Int.gcd_eq_gcd_ab (a : ℤ) (b : ℤ)
  have hcast : ((Nat.gcd a b : ℤ) : ZMod NN) * z = 0 := by
    rw [show ((Nat.gcd a b : ℤ)) = ((Int.gcd (a : ℤ) (b : ℤ) : ℤ)) by
      rw [Int.gcd_natCast_natCast]]
    rw [hbez]
    push_cast
    calc ((a : ZMod NN) * (Int.gcdA (a : ℤ) (b : ℤ) : ZMod NN)
            + (b : ZMod NN) * (Int.gcdB (a : ℤ) (b : ℤ) : ZMod NN)) * z
        = (Int.gcdA (a : ℤ) (b : ℤ) : ZMod NN) * ((a : ZMod NN) * z)
            + (Int.gcdB (a : ℤ) (b : ℤ) : ZMod NN) * ((b : ZMod NN) * z) := by ring
      _ = 0 := by rw [ha, hb]; ring
  rw [show ((Nat.gcd a b : ℕ) : ZMod NN) = ((Nat.gcd a b : ℤ) : ZMod NN) by push_cast; ring]
  exact hcast

end GroupLemmas

section TonelliLemmas

/-- More numeric facts about quotients of the group order. -/
lemma NN_div_27 : NN / 27 = sTS := by decide

lemma NN_div_9 : NN / 9 = 3 * sTS := by decide

lemma NN_div_3 : NN / 3 = 9 * sTS := by decide

lemma three_mul_div3 : 3 * ((p ^ 12 - 1) / 3) = NN := by decide

lemma s27_mul_27_eq : (p ^ 12 - 1) / 27 * 27 = NN := by decide

/-- Zeroth power. -/
lemma fqpow_zero_exp (a : Fq12) : fqpow a 0 = 1 := by
  apply Multiplicative.toAdd.injective
  rw [toAdd_fqpow, toAdd_one]
  push_cast
  ring

/-- Multiples of the group order vanish as casts. -/
lemma natCast_NN_mul (q : ℕ) : ((NN * q : ℕ) : ZMod NN) = 0 := by
  rw [ZMod.natCast_zmod_eq_zero_iff_dvd]
  exact Dvd.intro q rfl

/-- Any element accepted by `find_27th_root` has a discrete log of the form
`t * sTS` with `3 ∤ t`: it generates the full 3-Sylow subgroup. -/
lemma w_toAdd_form (w : Fq12) (hw27 : fqpow w 27 = 1) (hw9 : fqpow w 9 ≠ 1) :
    ∃ t, t < 27 ∧ ¬ 3 ∣ t ∧ w.toAdd = ((t * sTS : ℕ) : ZMod NN) := by
  have h27 : ((27 : ℕ) : ZMod NN) * w.toAdd = 0 := by
    have := (eq_one_iff_toAdd _).mp hw27
    rw [toAdd_fqpow] at this
    exact_mod_cast this
  have hdvd : (27 : ℕ) ∣ NN := ⟨sTS, NN_eq_27_mul_s⟩
  obtain ⟨t, ht27, hform⟩ := (natmul_eq_zero_iff 27 hdvd (by norm_num) w.toAdd).mp h27
  rw [NN_div_27] at hform
  refine ⟨t, ht27, ?_, hform⟩
  rintro ⟨t2, rfl⟩
  apply hw9
  rw [eq_one_iff_toAdd, toAdd_fqpow, hform]
  have hc : ((9 : ℕ) : ZMod NN) * ((3 * t2 * sTS : ℕ) : ZMod NN)
      = ((NN * t2 : ℕ) : ZMod NN) := by
    push_cast
    rw [show (NN : ℕ) = 27 * sTS from NN_eq_27_mul_s]
    push_cast
    ring
  rw [hc, natCast_NN_mul]

/-- The discrete log of the Tonelli-Shanks loop guard after `k` corrections:
`x_k^3 * a⁻¹` has logarithm `s * log a + 3k * log w`. -/
lemma tonelli_guard_toAdd (w a : Fq12) (k : ℕ) :
    (fqpow (fqpow a eTS * fqpow w k) 3 * a⁻¹).toAdd
      = ((sTS : ℕ) : ZMod NN) * a.toAdd + ((3 * k : ℕ) : ZMod NN) * w.toAdd := by
  rw [toAdd_mul, toAdd_inv, toAdd_fqpow, toAdd_mul, toAdd_fqpow, toAdd_fqpow]
  have h1 : ((3 * eTS : ℕ) : ZMod NN) = ((sTS + 1 : ℕ) : ZMod NN) := by rw [three_mul_eTS]
  push_cast at h1 ⊢
  linear_combination a.toAdd * h1

/-- Small finite search: the correction index exists mod 9. -/
lemma exists_k_mod9 : ∀ j, j < 9 → ∀ t0, t0 < 9 → ¬ 3 ∣ t0 →
    ∃ k, k < 9 ∧ (j + k * t0) % 9 = 0 := by decide

/-- On a cubic residue, the Tonelli-Shanks guard is satisfied after at most 8
corrections (in particular at most 26, as the spec states). -/
lemma tonelli_exit_exists (w a : Fq12) (hw27 : fqpow w 27 = 1) (hw9 : fqpow w 9 ≠ 1)
    (ha : pow_p12_minus_one_div_3 a = 1) :
    ∃ k, k ≤ 8 ∧ fqpow (fqpow a eTS * fqpow w k) 3 * a⁻¹ = 1 := by
  obtain ⟨t, ht27, ht3, hzw⟩ := w_toAdd_form w hw27 hw9
  have ha9 : ((9 * sTS : ℕ) : ZMod NN) * a.toAdd = 0 := by
    have h := (eq_one_iff_toAdd _).mp ha
    simp only [pow_p12_minus_one_div_3] at h
    rw [toAdd_fqpow, div3_eq_nine_s] at h
    exact_mod_cast h
  have h9y : ((9 : ℕ) : ZMod NN) * (((sTS : ℕ) : ZMod NN) * a.toAdd) = 0 := by
    rw [show ((9 : ℕ) : ZMod NN) * (((sTS : ℕ) : ZMod NN) * a.toAdd)
        = ((9 * sTS : ℕ) : ZMod NN) * a.toAdd by push_cast; ring]
    exact ha9
  have h9dvd : (9 : ℕ) ∣ NN := ⟨3 * sTS, NN_eq_9_mul⟩
  obtain ⟨j, hj9, hy⟩ :=
    (natmul_eq_zero_iff 9 h9dvd (by norm_num) _).mp h9y
  rw [NN_div_9] at hy
  have ht0 : ¬ 3 ∣ t % 9 := by
    intro hdv
    apply ht3
    omega
  obtain ⟨k, hk9, hkmod⟩ := exists_k_mod9 j hj9 (t % 9) (Nat.mod_lt t (by norm_num)) ht0
  have hdvd9 : 9 ∣ j + k * t := by
    have hcong : (j + k * (t % 9)) % 9 = (j + k * t) % 9 := by
      conv_rhs => rw [show t = 9 * (t / 9) + t % 9 from (Nat.div_add_mod t 9).symm]
      rw [show j + k * (9 * (t / 9) + t % 9) = j + k * (t % 9) + 9 * (k * (t / 9)) by ring]
      rw [Nat.add_mul_mod_self_left]
    apply Nat.dvd_of_mod_eq_zero
    rw [← hcong]
    exact hkmod
  refine ⟨k, by omega, ?_⟩
  rw [eq_one_iff_toAdd, tonelli_guard_toAdd, hy, hzw]
  obtain ⟨q, hq⟩ := hdvd9
  have hfin : ((j * (3 * sTS) : ℕ) : ZMod NN) + ((3 * k : ℕ) : ZMod NN) * ((t * sTS : ℕ) : ZMod NN)
      = ((NN * q : ℕ) : ZMod NN) := by
    rw [show ((j * (3 * sTS) : ℕ) : ZMod NN) + ((3 * k : ℕ) : ZMod NN) * ((t * sTS : ℕ) : ZMod NN)
        = ((j * (3 * sTS) + 3 * k * (t * sTS) : ℕ) : ZMod NN) by push_cast; ring]
    congr 1
    rw [show NN = 27 * sTS from NN_eq_27_mul_s]
    calc j * (3 * sTS) + 3 * k * (t * sTS) = 3 * sTS * (j + k * t) := by ring
    _ = 3 * sTS * (9 * q) := by rw [hq]
    _ = 27 * sTS * q := by ring
  rw [hfin, natCast_NN_mul]

/-- If the guard is satisfiable within the fuel, the loop returns a value
satisfying the guard. -/
lemma tonelli_loop_exits (w a : Fq12) :
    ∀ (fuel : ℕ) (x0 : Fq12), (∃ k, k < fuel ∧ fqpow (x0 * fqpow w k) 3 * a⁻¹ = 1) →
      fqpow (tonelli_loop w a fuel x0) 3 * a⁻¹ = 1 := by
  intro fuel
  induction fuel with
  | zero =>
    intro x0 h
    obtain ⟨k, hk, _⟩ := h
    omega
  | succ n ih =>
    intro x0 h
    simp only [tonelli_loop]
    by_cases hg : fqpow x0 3 * a⁻¹ = 1
    · rw [if_pos hg]; exact hg
    · rw [if_neg hg]
      apply ih
      obtain ⟨k, hk, hexit⟩ := h
      rcases k with _ | k2
      · exfalso
        apply hg
        rw [fqpow_zero_exp, mul_one] at hexit
        exact hexit
      · refine ⟨k2, by omega, ?_⟩
        have hx : x0 * w * fqpow w k2 = x0 * fqpow w (k2 + 1) := by
          rw [fqpow_succ_exp, ← mul_assoc, mul_assoc x0, mul_comm w, ← mul_assoc]
        rw [hx]
        exact hexit

/-- Full correctness of `tonelli_shanks_third_root` on cubic residues: the
returned value cubes to the input. -/
lemma tonelli_correct (w a : Fq12) (hw27 : fqpow w 27 = 1) (hw9 : fqpow w 9 ≠ 1)
    (ha : pow_p12_minus_one_div_3 a = 1) :
    fqpow (tonelli_shanks_third_root w a) 3 = a := by
  obtain ⟨k, hk, hexit⟩ := tonelli_exit_exists w a hw27 hw9 ha
  have hres := tonelli_loop_exits w a 27 (fqpow a eTS) ⟨k, by omega, hexit⟩
  rw [tonelli_shanks_third_root]
  exact mul_inv_eq_one.mp hres

end TonelliLemmas

section ResidueLemmas

/-- The cubic-residue test, additively. -/
lemma pow3_toAdd (x : Fq12) :
    (pow_p12_minus_one_div_3 x).toAdd = ((9 * sTS : ℕ) : ZMod NN) * x.toAdd := by
  simp only [pow_p12_minus_one_div_3]
  rw [toAdd_fqpow, div3_eq_nine_s]

lemma nine_s_pos : 0 < 9 * sTS := by decide

/-- A multiple of the order-3 generator vanishes exactly when the multiplier
is divisible by 3. -/
lemma cast_nine_s_zero_iff (n : ℕ) : ((9 * sTS * n : ℕ) : ZMod NN) = 0 ↔ 3 ∣ n := by
  rw [ZMod.natCast_zmod_eq_zero_iff_dvd, NN_eq_27_mul_s,
    show 27 * sTS = 9 * sTS * 3 by ring]
  exact Nat.mul_dvd_mul_iff_left nine_s_pos

/-- Finite check behind the three-way branch of `witness_generator`: in the
group of cube roots of unity, if neither `i` nor `i + j` is trivial (with `j`
nontrivial), then `i + 2j` is. -/
lemma branch_check : ∀ i, i < 3 → ∀ j, j < 3 → ¬ 3 ∣ i → ¬ 3 ∣ j → ¬ 3 ∣ (i + j) →
    3 ∣ (i + 2 * j) := by decide

/-- Step 2 of `witness_generator` always succeeds: for any valid `w`, the
value selected by the three-way branch is a cubic residue. -/
lemma residue_adjust_is_cube (w f : Fq12) (hw27 : fqpow w 27 = 1) (hw9 : fqpow w 9 ≠ 1) :
    pow_p12_minus_one_div_3 (residue_adjust w f) = 1 := by
  rw [residue_adjust]
  by_cases h1 : pow_p12_minus_one_div_3 f = 1
  · rw [if_pos h1]; exact h1
  · rw [if_neg h1]
    by_cases h2 : pow_p12_minus_one_div_3 (f * w) = 1
    · rw [if_pos h2]; exact h2
    · rw [if_neg h2]
      obtain ⟨t, ht27, ht3, hzw⟩ := w_toAdd_form w hw27 hw9
      have h3A : ((3 : ℕ) : ZMod NN) * (((9 * sTS : ℕ) : ZMod NN) * f.toAdd) = 0 := by
        rw [show ((3 : ℕ) : ZMod NN) * (((9 * sTS : ℕ) : ZMod NN) * f.toAdd)
            = ((3 * (9 * sTS) : ℕ) : ZMod NN) * f.toAdd by push_cast; ring]
        rw [show (3 * (9 * sTS) : ℕ) = NN * 1 by rw [NN_eq_27_mul_s]; ring]
        rw [natCast_NN_mul, zero_mul]
      obtain ⟨i, hi3, hA⟩ :=
        (natmul_eq_zero_iff 3 ⟨9 * sTS, by rw [NN_eq_27_mul_s]; ring⟩ (by norm_num) _).mp h3A
      rw [NN_div_3] at hA
      rw [show (i * (9 * sTS) : ℕ) = 9 * sTS * i by ring] at hA
      have hZ : ((9 * sTS : ℕ) : ZMod NN) * w.toAdd
          = ((9 * sTS * ((t * sTS) % 3) : ℕ) : ZMod NN) := by
        rw [hzw]
        rw [show ((9 * sTS : ℕ) : ZMod NN) * ((t * sTS : ℕ) : ZMod NN)
            = ((9 * sTS * (t * sTS) : ℕ) : ZMod NN) by push_cast; ring]
        rw [show (9 * sTS * (t * sTS) : ℕ)
            = NN * ((t * sTS) / 3) + 9 * sTS * ((t * sTS) % 3) by
          rw [NN_eq_27_mul_s]
          have hdm := Nat.div_add_mod (t * sTS) 3
          calc 9 * sTS * (t * sTS)
              = 9 * sTS * (3 * ((t * sTS) / 3) + (t * sTS) % 3) := by rw [hdm]
            _ = 27 * sTS * ((t * sTS) / 3) + 9 * sTS * ((t * sTS) % 3) := by ring]
        rw [show ((NN * ((t * sTS) / 3) + 9 * sTS * ((t * sTS) % 3) : ℕ) : ZMod NN)
            = ((NN * ((t * sTS) / 3) : ℕ) : ZMod NN)
                + ((9 * sTS * ((t * sTS) % 3) : ℕ) : ZMod NN) by push_cast; ring]
        rw [natCast_NN_mul, zero_add]
      have hts3 : ¬ 3 ∣ (t * sTS) := by
        intro hdv
        rcases (Nat.Prime.dvd_mul Nat.prime_three).mp hdv with hc | hc
        · exact ht3 hc
        · exact not_three_dvd_sTS hc
      have hi : ¬ 3 ∣ i := by
        intro hdv
        apply h1
        rw [eq_one_iff_toAdd, pow3_toAdd, hA]
        exact (cast_nine_s_zero_iff i).mpr hdv
      have hj : ¬ 3 ∣ ((t * sTS) % 3) := by omega
      have hij : ¬ 3 ∣ (i + (t * sTS) % 3) := by
        intro hdv
        apply h2
        rw [eq_one_iff_toAdd, pow3_toAdd, toAdd_mul, mul_add, hA, hZ]
        rw [show ((9 * sTS * i : ℕ) : ZMod NN) + ((9 * sTS * ((t * sTS) % 3) : ℕ) : ZMod NN)
            = ((9 * sTS * (i + (t * sTS) % 3) : ℕ) : ZMod NN) by push_cast; ring]
        exact (cast_nine_s_zero_iff _).mpr hdv
      have hgoal := branch_check i hi3 ((t * sTS) % 3) (Nat.mod_lt _ (by norm_num)) hi hj hij
      rw [eq_one_iff_toAdd, pow3_toAdd, toAdd_mul, toAdd_fqpow, mul_add, hA]
      rw [show ((9 * sTS : ℕ) : ZMod NN) * (((2 : ℕ) : ZMod NN) * w.toAdd)
          = ((2 : ℕ) : ZMod NN) * (((9 * sTS : ℕ) : ZMod NN) * w.toAdd) by ring, hZ]
      rw [show ((9 * sTS * i : ℕ) : ZMod NN)
            + ((2 : ℕ) : ZMod NN) * ((9 * sTS * ((t * sTS) % 3) : ℕ) : ZMod NN)
          = ((9 * sTS * (i + 2 * ((t * sTS) % 3)) : ℕ) : ZMod NN) by push_cast; ring]
      exact (cast_nine_s_zero_iff _).mpr hgoal

/-- The first component of `witness_generator` is the composite of the three
root extractions applied to the adjusted value. -/
lemma witness_generator_fst (w f : Fq12) :
    (witness_generator w f).1
      = tonelli_shanks_third_root w (mp_th_root_of_c (r_th_root_of_f (residue_adjust w f))) := by
  simp only [witness_generator, residue_adjust]
  by_cases h1 : pow_p12_minus_one_div_3 f = 1
  · simp [h1]
  · by_cases h2 : pow_p12_minus_one_div_3 (f * w) = 1
    · simp [h1, h2]
    · simp [h1, h2]

end ResidueLemmas

section RootLemmas

/-- `r_th_root_of_f` in closed form: the inversion always succeeds on
`(r, h)`. -/
lemma r_th_root_of_f_eq (f : Fq12) : r_th_root_of_f f = fqpow f KrBN.toNat := by
  simp only [r_th_root_of_f, invert_r_hBN]

/-- `mp_th_root_of_c` in closed form: the inversion always succeeds on
`(mp, h)`. -/
lemma mp_th_root_of_c_eq (c : Fq12) : mp_th_root_of_c c = fqpow c KmpBN.toNat := by
  simp only [mp_th_root_of_c, invert_mp_hBN]

/-- `w^h = 1` for any `w` of order dividing 27 (since `27 ∣ h`). -/
lemma fqpow_w_hBN (w : Fq12) (hw27 : fqpow w 27 = 1) : fqpow w hBN = 1 := by
  rw [divides_27_hBN]
  exact fqpow_mul_of_eq_one w 27 _ hw27

/-- The adjusted value remains an `r`-th residue: multiplying by a 27-torsion
element does not change the `h`-annihilation. -/
lemma residue_adjust_hBN (w f : Fq12) (hw27 : fqpow w 27 = 1) (hf : fqpow f hBN = 1) :
    fqpow (residue_adjust w f) hBN = 1 := by
  have hwh : fqpow w hBN = 1 := fqpow_w_hBN w hw27
  rw [residue_adjust]
  split_ifs with h1 h2
  · exact hf
  · rw [fqpow_mul_base, hf, hwh, mul_one]
  · rw [fqpow_mul_base, hf, one_mul, fqpow_fqpow, mul_comm, ← fqpow_fqpow, hwh, fqpow_one_base]

/-- `9 * sTS = (h/3) * r`: the cubic-residue exponent through `h`. -/
lemma nine_s_eq : 9 * sTS = hBN / 3 * r := by decide

/-- The value fed to the cube-root step is itself a cubic residue whenever the
adjusted input is an `r`-th residue: its order divides `h/3`. -/
lemma composite_root_is_cube (w f : Fq12) (hw27 : fqpow w 27 = 1) (hw9 : fqpow w 9 ≠ 1)
    (hf : fqpow f hBN = 1) :
    pow_p12_minus_one_div_3 (fqpow (residue_adjust w f) (KrBN.toNat * KmpBN.toNat)) = 1 := by
  have hf2h := residue_adjust_hBN w f hw27 hf
  have hf2c := residue_adjust_is_cube w f hw27 hw9
  have hA : ((hBN : ℕ) : ZMod NN) * (residue_adjust w f).toAdd = 0 := by
    have h := (eq_one_iff_toAdd _).mp hf2h
    rw [toAdd_fqpow] at h
    exact h
  have hB : (((p ^ 12 - 1) / 3 : ℕ) : ZMod NN) * (residue_adjust w f).toAdd = 0 := by
    have h := (eq_one_iff_toAdd _).mp hf2c
    simp only [pow_p12_minus_one_div_3] at h
    rw [toAdd_fqpow] at h
    exact h
  have hann := gcd_annihilates hBN ((p ^ 12 - 1) / 3) _ hA hB
  rw [gcd_h_div3] at hann
  rw [eq_one_iff_toAdd, pow3_toAdd, toAdd_fqpow]
  rw [show ((9 * sTS : ℕ) : ZMod NN)
        * (((KrBN.toNat * KmpBN.toNat : ℕ) : ZMod NN) * (residue_adjust w f).toAdd)
      = ((KrBN.toNat * KmpBN.toNat * r : ℕ) : ZMod NN)
        * (((hBN / 3 : ℕ) : ZMod NN) * (residue_adjust w f).toAdd) by
    rw [nine_s_eq]; push_cast; ring]
  rw [hann, mul_zero]

/-- The composed exponent of the three root extractions is `1` modulo `h`. -/
lemma composed_exponent_mod : KrBN.toNat * KmpBN.toNat * (mpBN * r) % hBN = 1 := by
  rw [show KrBN.toNat * KmpBN.toNat * (mpBN * r)
      = (KrBN.toNat * r) * (KmpBN.toNat * mpBN) by ring]
  rw [Nat.mul_mod, KrBN_mul_r, KmpBN_mul_mp]
  decide

end RootLemmas

section ConcreteElements

/-- A concrete sample: a generator of `F_{p^12}^×` (discrete log 1). -/
def gGen : Fq12 := Multiplicative.ofAdd (1 : ZMod NN)

/-- The concrete 27th root of unity produced by `find_27th_root` on the
sample `gGen`. -/
def w0 : Fq12 := find_27th_root_candidate gGen

/-- A trivial instantiation of the core operations: the dispatcher claims are
about response shapes only, which do not depend on the mathematical kernel. -/
def trivialOps : CoreOps where
  tonelli_third_root := fun x => x
  is_third_root_op := fun _ => true
  rand_third_root_op :=
    { c0 := { c0 := { c0 := 0, c1 := 0 }, c1 := { c0 := 0, c1 := 0 }, c2 := { c0 := 0, c1 := 0 } }
      c1 := { c0 := { c0 := 0, c1 := 0 }, c1 := { c0 := 0, c1 := 0 }, c2 := { c0 := 0, c1 := 0 } } }
  witness_generator_op := fun x => (x, x)

/-- A request with an unrecognized function name. -/
def unknownRequest : RequestData where
  session_id := 0
  function := "unknown"
  inputs := []
  root_path := ""
  package_name := ""

/-- A well-formed `third_root` request: twelve scalar coordinates, each `1`. -/
def thirdRootRequest : RequestData where
  session_id := 0
  function := "third_root"
  inputs := List.replicate 12 (ForeignCallParam.Single "1")
  root_path := ""
  package_name := ""

end ConcreteElements

section ListLemmas

/-- The all-or-nothing traversal fails as soon as one element fails. -/
lemma option_map_list_eq_none_of_mem {α β : Type} (f : α → Option β) (l : List α) (a : α)
    (ha : a ∈ l) (hf : f a = none) : option_map_list f l = none := by
  induction l with
  | nil => cases ha
  | cons x xs ih =>
    rcases List.mem_cons.mp ha with heq | hmem
    · subst heq
      simp [option_map_list, hf]
    · have hxs := ih hmem
      simp only [option_map_list, hxs]
      cases f x <;> simp

/-- The all-or-nothing traversal preserves length on success. -/
lemma option_map_list_length {α β : Type} (f : α → Option β) :
    ∀ (l : List α) (l2 : List β), option_map_list f l = some l2 → l2.length = l.length := by
  intro l
  induction l with
  | nil =>
    intro l2 h
    simp only [option_map_list, Option.some.injEq] at h
    rw [← h]
    rfl
  | cons x xs ih =>
    intro l2 h
    simp only [option_map_list] at h
    cases hfx : f x with
    | none => rw [hfx] at h; simp at h
    | some b =>
      rw [hfx] at h
      cases hxs : option_map_list f xs with
      | none => rw [hxs] at h; simp at h
      | some bs =>
        rw [hxs] at h
        have h3 : b :: bs = l2 := Option.some.inj h
        rw [← h3]
        simp [ih bs hxs]

end ListLemmas

section Claims

set_option maxRecDepth 8000 in
/-- C1, counterexample: at `f = 1` with the concrete sampled root `w0`, the
returned pair `(c, u) = (1, w0^3)` violates the claimed witness equation
`c^λ = f · u`, because the source computes `u` as `w.pow([3 ^ s])` with
Rust's bitwise XOR (`3 XOR 0 = 3`), so `c^λ = 1` but `f · u = w0^3 ≠ 1`. -/
theorem C1_counterexample :
    fqpow (witness_generator w0 (1 : Fq12)).1 lambdaBN
      ≠ (1 : Fq12) * (witness_generator w0 (1 : Fq12)).2 := by
  decide

/-- C1 (amended): for every valid 27th root of unity `w` (as produced by
`find_27th_root`) and every `f` that is an `r`-th power residue
(`f^h = 1` with `h = (p^12-1)/r`), the first component `c` returned by
`witness_generator(f)` satisfies `c^λ = f · w^s` where `f · w^s` is the
step-2 adjusted value (`residue_adjust`); the returned second component
`u = w^(3 XOR s)` is not the correct multiplier, and for `f` outside the
`r`-th-residue subgroup no equation of this shape holds. -/
theorem C1_witness_equation (w f : Fq12) (hw27 : fqpow w 27 = 1) (hw9 : fqpow w 9 ≠ 1)
    (hf : fqpow f hBN = 1) :
    fqpow (witness_generator w f).1 lambdaBN = residue_adjust w f := by
  have hcube := composite_root_is_cube w f hw27 hw9 hf
  have ht := tonelli_correct w _ hw27 hw9 hcube
  rw [witness_generator_fst, r_th_root_of_f_eq, mp_th_root_of_c_eq, fqpow_fqpow]
  rw [lambdaBN_factored, ← fqpow_fqpow _ 3 (mpBN * r), ht, fqpow_fqpow]
  exact fqpow_reduce_mod_h _ _ composed_exponent_mod (residue_adjust_hBN w f hw27 hf)

set_option maxRecDepth 8000 in
/-- C1, witness: the amended equation holds at the concrete instance
`w = w0`, `f = 1`. -/
theorem C1_witness :
    fqpow w0 27 = 1 ∧ fqpow w0 9 ≠ 1 ∧ fqpow (1 : Fq12) hBN = 1
      ∧ fqpow (witness_generator w0 (1 : Fq12)).1 lambdaBN = residue_adjust w0 1 :=
  ⟨by decide, by decide, by decide, C1_witness_equation w0 1 (by decide) (by decide) (by decide)⟩

set_option maxRecDepth 8000 in
/-- C2, counterexample: on a generator `g` of `F_{p^12}^×` (not an `r`-th
power residue), `r_th_root_of_f(g)^r ≠ g`: the inverse-exponent trick only
right-inverts the `r`-th-power map on its image. -/
theorem C2_counterexample : fqpow (r_th_root_of_f gGen) r ≠ gGen := by
  decide

/-- C2 (amended): for every `f` in the image of the `r`-th-power map
(equivalently `f^h = 1`), `r_th_root_of_f(f)^r = f`. -/
theorem C2_r_th_root (f : Fq12) (hf : fqpow f hBN = 1) :
    fqpow (r_th_root_of_f f) r = f := by
  rw [r_th_root_of_f_eq, fqpow_fqpow]
  exact fqpow_reduce_mod_h f _ KrBN_mul_r hf

set_option maxRecDepth 8000 in
/-- C2, witness: the amended claim at the concrete `r`-th residue `g^r`. -/
theorem C2_witness :
    fqpow (fqpow gGen r) hBN = 1
      ∧ fqpow (r_th_root_of_f (fqpow gGen r)) r = fqpow gGen r :=
  ⟨by decide, C2_r_th_root (fqpow gGen r) (by decide)⟩

/-- C3: on a cubic residue `a` (precondition `is_third_root a`), and for any
root `w` satisfying the `find_27th_root` acceptance (the source always uses
such a `w`), `tonelli_shanks_third_root` returns a cube root of `a`, and the
correction loop guard is satisfied after at most 26 multiplications by `w`
(in fact at most 8). -/
theorem C3_tonelli (w a : Fq12) (hw27 : fqpow w 27 = 1) (hw9 : fqpow w 9 ≠ 1)
    (ha : is_third_root a = true) :
    fqpow (tonelli_shanks_third_root w a) 3 = a
      ∧ ∃ k, k ≤ 26 ∧ fqpow (fqpow a eTS * fqpow w k) 3 * a⁻¹ = 1 := by
  have ha2 : pow_p12_minus_one_div_3 a = 1 := by
    simp only [is_third_root, decide_eq_true_eq] at ha
    exact ha
  refine ⟨tonelli_correct w a hw27 hw9 ha2, ?_⟩
  obtain ⟨k, hk, hexit⟩ := tonelli_exit_exists w a hw27 hw9 ha2
  exact ⟨k, by omega, hexit⟩

set_option maxRecDepth 8000 in
/-- C3, witness: concrete instance `w = w0`, `a = 1`. -/
theorem C3_witness :
    is_third_root (1 : Fq12) = true ∧ fqpow (tonelli_shanks_third_root w0 1) 3 = 1 :=
  ⟨by decide, (C3_tonelli w0 1 (by decide) (by decide) (by decide)).1⟩

set_option maxRecDepth 8000 in
/-- C4, counterexample: at `f = 1` with the concrete root `w0`, the second
component is `w0^(3 XOR 0) = w0^3`, which lies in none of `{1, w, w^2}`
(and differs from `w^(3·s) = w^0 = 1`). -/
theorem C4_counterexample :
    ¬ ((witness_generator w0 (1 : Fq12)).2 = 1 ∨ (witness_generator w0 (1 : Fq12)).2 = w0
      ∨ (witness_generator w0 (1 : Fq12)).2 = fqpow w0 2) := by
  decide

/-- C4 (amended): the second component `u` of every `witness_generator` pair
lies in `{w, w^2, w^3}` — it is `w^(3 XOR s)` for `s ∈ {0, 1, 2}` — rather
than in `{1, w, w^2}` (equivalently `w^(3s)`) as claimed. -/
theorem C4_u_power_of_w (w f : Fq12) :
    (witness_generator w f).2 = fqpow w 3 ∨ (witness_generator w f).2 = fqpow w 2
      ∨ (witness_generator w f).2 = w := by
  simp only [witness_generator]
  by_cases h1 : pow_p12_minus_one_div_3 f = 1
  · left; simp [h1]
  · by_cases h2 : pow_p12_minus_one_div_3 (f * w) = 1
    · right; left; simp [h1, h2]
    · right; right; simp [h1, h2, fqpow_one_exp]

/-- C5: every accepted outcome of the `find_27th_root` sampling loop has
exact multiplicative order 27: the candidate `w = x^((p^12-1)/27)` always
satisfies `w^27 = 1`, and the acceptance test `w ≠ 1 ∧ w^9 ≠ 1` forces
`orderOf w = 27`. -/
theorem C5_find_27th_root (x : Fq12) (hacc : find_27th_root_accepts x = true) :
    fqpow (find_27th_root_candidate x) 27 = 1 ∧ fqpow (find_27th_root_candidate x) 9 ≠ 1
      ∧ find_27th_root_candidate x ≠ 1 ∧ orderOf (find_27th_root_candidate x) = 27 := by
  simp only [find_27th_root_accepts, Bool.and_eq_true, decide_eq_true_eq] at hacc
  obtain ⟨hne1, hne9⟩ := hacc
  have h27 : fqpow (find_27th_root_candidate x) 27 = 1 := by
    simp only [find_27th_root_candidate, pow_p12_minus_one_div_27]
    rw [fqpow_fqpow, s27_mul_27_eq]
    exact fqpow_NN x
  refine ⟨h27, hne9, hne1, ?_⟩
  have hp27 : (find_27th_root_candidate x) ^ 27 = 1 := by rw [← fqpow_eq_pow]; exact h27
  have hp9 : (find_27th_root_candidate x) ^ 9 ≠ 1 := by rw [← fqpow_eq_pow]; exact hne9
  have hdvd : orderOf (find_27th_root_candidate x) ∣ 27 := orderOf_dvd_of_pow_eq_one hp27
  have hle : orderOf (find_27th_root_candidate x) ≤ 27 := Nat.le_of_dvd (by norm_num) hdvd
  have hcases : ∀ d, d < 28 → d ∣ 27 → d = 27 ∨ d ∣ 9 := by decide
  rcases hcases _ (by omega) hdvd with h | h
  · exact h
  · exact absurd (orderOf_dvd_iff_pow_eq_one.mp h) hp9

/-- C5, witness: the concrete sample `gGen` is accepted and yields a root of
exact order 27. -/
theorem C5_witness :
    find_27th_root_accepts gGen = true ∧ orderOf (find_27th_root_candidate gGen) = 27 :=
  ⟨by decide, (C5_find_27th_root gGen (by decide)).2.2.2⟩

/-- The index of the cube subgroup inside the full group. -/
lemma NN_div_nine_s : NN / (9 * sTS) = 3 := by decide

/-- C6: `is_third_root(a)` returns `true` exactly when `a` has a cube root in
`F_{p^12}^×`: the test `a^((p^12-1)/3) = 1` characterizes the image of the
cubing map. -/
theorem C6_is_third_root_iff (a : Fq12) :
    is_third_root a = true ↔ ∃ b : Fq12, fqpow b 3 = a := by
  constructor
  · intro ha
    have h1 : pow_p12_minus_one_div_3 a = 1 := by
      simp only [is_third_root, decide_eq_true_eq] at ha
      exact ha
    have h0 := (eq_one_iff_toAdd _).mp h1
    rw [pow3_toAdd] at h0
    obtain ⟨k, hk, hform⟩ :=
      (natmul_eq_zero_iff (9 * sTS) ⟨3, by rw [NN_eq_27_mul_s]; ring⟩ nine_s_pos _).mp h0
    rw [NN_div_nine_s] at hform
    refine ⟨Multiplicative.ofAdd ((k : ℕ) : ZMod NN), ?_⟩
    apply Multiplicative.toAdd.injective
    rw [toAdd_fqpow, hform, toAdd_ofAdd]
    push_cast
    ring
  · rintro ⟨b, rfl⟩
    simp only [is_third_root, decide_eq_true_eq]
    rw [eq_one_iff_toAdd, pow3_toAdd, toAdd_fqpow]
    have hc : ((9 * sTS : ℕ) : ZMod NN) * (((3 : ℕ) : ZMod NN) * b.toAdd)
        = ((NN : ℕ) : ZMod NN) * b.toAdd := by
      rw [show ((NN : ℕ) : ZMod NN) = ((9 * sTS * 3 : ℕ) : ZMod NN) by
        rw [show (9 * sTS * 3 : ℕ) = 27 * sTS by ring, ← NN_eq_27_mul_s]]
      push_cast
      ring
    rw [hc, ZMod.natCast_self, zero_mul]

/-- C7: at the sample `a = gGen` (a generator of the unit group), the
acceptance test of `find_third_non_residue` passes — `b^3 ≠ 1` where
`b = a^((p^12-1)/27)` — so the pair is returned, yet `b^9 ≠ 1`: the loop
never checks the `b^9 = 1` half of the claimed postcondition (which the
repository's own `test_find_third_non_residue` asserts). -/
theorem C7_failing_sample :
    find_third_non_residue_accepts gGen = true
      ∧ fqpow (find_third_non_residue_result gGen).2 3 ≠ 1
      ∧ fqpow (find_third_non_residue_result gGen).2 9 ≠ 1 :=
  ⟨by decide, by decide, by decide⟩

/-- Responses built as `{"values": [...]}` around a decoded element have the
documented shape whenever the handler returns at all. -/
lemma map_values_shape (o : Option Fq12R) (g : Fq12R → List Json) (j : Json)
    (hj : o.map (fun fp => Json.obj [("values", Json.arr (g fp))]) = some j) :
    is_values_shape j = true := by
  cases o with
  | none => simp at hj
  | some fp =>
    simp only [Option.map_some'] at hj
    rw [← Option.some.inj hj]
    rfl

/-- C8, counterexample: a request with unknown function name produces the
bare JSON array `["oops"]` — which does contain the literal `"oops"` but is
not an object of shape `{ "values": [...] }`. -/
theorem C8_counterexample :
    dispatch trivialOps unknownRequest = some (Json.arr [Json.str "oops"])
      ∧ is_values_shape (Json.arr [Json.str "oops"]) = false
      ∧ contains_oops (Json.arr [Json.str "oops"]) = true :=
  ⟨rfl, rfl, rfl⟩

/-- C8 (amended): every dispatched request yields either a `{"values": [...]}`
object (the four mathematical handlers), or — for `witness_gen` — the bare
placeholder string, or — for an unknown name — the bare array `["oops"]`
containing the literal `"oops"`. -/
theorem C8_response_shapes (ops : CoreOps) (req : RequestData) (j : Json)
    (hj : dispatch ops req = some j) :
    is_values_shape j = true
    ∨ (req.function = "witness_gen" ∧ j = Json.str "Hello, world!")
    ∨ (req.function ∉ (["witness_gen", "third_root", "is_third_root", "random_third_root",
        "get_pairing_witnesses"] : List String) ∧ j = Json.arr [Json.str "oops"]
        ∧ contains_oops j = true) := by
  unfold dispatch at hj
  split at hj
  · right; left
    exact ⟨by assumption, (Option.some.inj hj).symm⟩
  · left
    simp only [handle_third_root] at hj
    exact map_values_shape _ _ j hj
  · left
    simp only [handle_is_third_root] at hj
    exact map_values_shape _ _ j hj
  · left
    rw [← Option.some.inj hj]
    rfl
  · left
    simp only [handle_get_pairing_witnesses] at hj
    exact map_values_shape _ _ j hj
  · right; right
    have hje : j = Json.arr [Json.str "oops"] := (Option.some.inj hj).symm
    refine ⟨?_, hje, by rw [hje]; rfl⟩
    intro hmem
    simp only [List.mem_cons, List.mem_singleton, List.not_mem_nil, or_false] at hmem
    rcases hmem with h | h | h | h | h <;> simp_all

/-- C8, witness: a well-formed `third_root` request produces the documented
values shape. -/
theorem C8_witness :
    is_values_shape (Json.obj [("values", Json.arr
      [Json.arr (((List.replicate 12 (["1", "0", "0"] : List String)).flatten).map
        Json.str)])]) = true ∨
    (thirdRootRequest.function = "witness_gen" ∧ (Json.obj [("values", Json.arr
      [Json.arr (((List.replicate 12 (["1", "0", "0"] : List String)).flatten).map
        Json.str)])]) = Json.str "Hello, world!") ∨
    (thirdRootRequest.function ∉ (["witness_gen", "third_root", "is_third_root",
        "random_third_root", "get_pairing_witnesses"] : List String) ∧ (Json.obj [("values",
      Json.arr [Json.arr (((List.replicate 12 (["1", "0", "0"] : List String)).flatten).map
        Json.str)])]) = Json.arr [Json.str "oops"] ∧ contains_oops (Json.obj [("values",
      Json.arr [Json.arr (((List.replicate 12 (["1", "0", "0"] : List String)).flatten).map
        Json.str)])]) = true) :=
  C8_response_shapes trivialOps thirdRootRequest _ (by rfl)

/-- C9, counterexample: a limb equal to `2^120` (`"1"` followed by thirty hex
zeros) is outside the documented bound `limb < 2^120`, yet `cast_to_biguint`
accepts it silently — no `DecodeError` arises; the value carries into the
next limb position. -/
theorem C9_counterexample :
    cast_to_biguint ["1000000000000000000000000000000"] = some (2 ^ 120) := by
  decide

/-- C9 (amended): a malformed-hex limb makes the decode fail — modelling the
Rust `unwrap` panic, not a surfaced JSON-RPC error — and fewer than twelve
coordinates make `get_fq12_from_callparam` fail (the source's out-of-bounds
indexing panic); but a limb `≥ 2^120` is silently accepted. -/
theorem C9_decode_behavior :
    (∀ (ss : List String) (s : String), s ∈ ss → s ≠ "" → from_str_radix_16 s = none →
        cast_to_biguint ss = none)
    ∧ (∀ inputs : List (ForeignCallParam String), inputs.length < 12 →
        get_fq12_from_callparam inputs = none)
    ∧ cast_to_biguint ["1000000000000000000000000000000"] = some (2 ^ 120) := by
  refine ⟨?_, ?_, by decide⟩
  · intro ss s hmem hne hparse
    rw [cast_to_biguint]
    rw [option_map_list_eq_none_of_mem _ ss s hmem (by rw [if_neg hne]; exact hparse)]
    rfl
  · intro inputs hlen
    rw [get_fq12_from_callparam]
    cases hm : option_map_list (fun inp => (cast_to_biguint (callparam_to_string inp)).map
        (fun n => (n : ZMod p))) inputs with
    | none => rfl
    | some l =>
      have hl := option_map_list_length _ inputs l hm
      have hnot : ¬ 12 ≤ l.length := by omega
      exact if_neg hnot

/-- C9, witness: concrete failing decodes and the concrete silent
acceptance. -/
theorem C9_witness :
    cast_to_biguint ["zz"] = none ∧ get_fq12_from_callparam [] = none :=
  ⟨C9_decode_behavior.1 ["zz"] "zz" (List.mem_singleton.mpr rfl) (by decide) (by decide),
   C9_decode_behavior.2.1 [] (by decide)⟩

/-- C10: on any non-cubic-residue `a`, the correction loop guard
`x^3 * a⁻¹ = 1` of `tonelli_shanks_third_root` fails for every number of
corrections `k`: the residual never reaches `1`, so the Rust `while` loop
never exits (the caller must preempt with the cubic-residue test). -/
theorem C10_tonelli_diverges (w a : Fq12) (hw27 : fqpow w 27 = 1)
    (ha : pow_p12_minus_one_div_3 a ≠ 1) :
    ∀ k : ℕ, fqpow (fqpow a eTS * fqpow w k) 3 * a⁻¹ ≠ 1 := by
  intro k hexit
  apply ha
  have hw27a : ((27 : ℕ) : ZMod NN) * w.toAdd = 0 := by
    have h := (eq_one_iff_toAdd _).mp hw27
    rw [toAdd_fqpow] at h
    exact h
  have h0 := (eq_one_iff_toAdd _).mp hexit
  rw [tonelli_guard_toAdd] at h0
  rw [eq_one_iff_toAdd, pow3_toAdd]
  have h9 := congrArg (fun z : ZMod NN => ((9 : ℕ) : ZMod NN) * z) h0
  simp only [mul_zero] at h9
  calc ((9 * sTS : ℕ) : ZMod NN) * a.toAdd
      = ((9 : ℕ) : ZMod NN) * (((sTS : ℕ) : ZMod NN) * a.toAdd
          + ((3 * k : ℕ) : ZMod NN) * w.toAdd)
        - ((k : ℕ) : ZMod NN) * (((27 : ℕ) : ZMod NN) * w.toAdd) := by
        push_cast; ring
    _ = 0 := by rw [h9, hw27a]; simp

/-- C10, witness: the guard concretely fails at `a = gGen` (not a cubic
residue), `w = w0`, after five corrections. -/
theorem C10_witness :
    pow_p12_minus_one_div_3 gGen ≠ 1
      ∧ fqpow (fqpow gGen eTS * fqpow w0 5) 3 * gGen⁻¹ ≠ 1 :=
  ⟨by decide, C10_tonelli_diverges w0 gGen (by decide) (by decide) 5⟩

end Claims

end NoirPairing
